import Mathlib

/-!
# Shallow embedding of the qualmap phrase-extraction and ranking core

This file embeds the two core modules of the repository:

* `src/utils/postcodeExtractor.js` — region-key normalisation
  (`extractDistrict`, `groupDistrictsByArea`);
* `src/utils/nlpProcessor.js` — phrase extraction, significance filtering,
  frequency aggregation and ranking (`extractPhrases`, `isSignificantPhrase`,
  `countPhraseFrequencies`, `generateWordCloudData`, `processTextsToWordCloud`).

JavaScript strings are modelled as Lean `String` (a list of characters);
`null`/`undefined`/non-string arguments are modelled with `Option`/small sum
types at each function boundary, mirroring the dynamic `typeof` checks in the
source.  JS objects used as string-keyed dictionaries are modelled as
association lists in property-insertion order (the enumeration order of
`Object.entries` for the non-numeric string keys produced by this pipeline).
The compromise NLP library is an external collaborator; it is abstracted as a
`Tagger` record supplying the four tagging operations the source uses.
-/

namespace Qualmap

/-- ASCII model of the whitespace class trimmed by JS `String.prototype.trim`
(tab, LF, VT, FF, CR, space). -/
def jsWhitespace (c : Char) : Bool :=
  c.toNat == 9 || c.toNat == 10 || c.toNat == 11 || c.toNat == 12 ||
  c.toNat == 13 || c.toNat == 32

/-- Letters `'a'` to `'z'`. -/
def isLowerAZ (c : Char) : Bool := 97 ≤ c.toNat && c.toNat ≤ 122

/-- Letters `'A'` to `'Z'` (the regex class `[A-Z]`). -/
def isUpperAZ (c : Char) : Bool := 65 ≤ c.toNat && c.toNat ≤ 90

/-- Digits `'0'` to `'9'` (the regex class `\d`, ASCII). -/
def isDigitChar (c : Char) : Bool := 48 ≤ c.toNat && c.toNat ≤ 57

/-- ASCII letter of either case (the regex class `[A-Z]` under the `i` flag). -/
def isLetterChar (c : Char) : Bool := isUpperAZ c || isLowerAZ c

/-- ASCII model of JS `toUpperCase` on one character. -/
def charUpper (c : Char) : Char :=
  if isLowerAZ c then Char.ofNat (c.toNat - 32) else c

/-- ASCII model of JS `toLowerCase` on one character. -/
def charLower (c : Char) : Char :=
  if isUpperAZ c then Char.ofNat (c.toNat + 32) else c

/-- Trim `jsWhitespace` from both ends of a character list. -/
def trimList (l : List Char) : List Char :=
  ((l.dropWhile jsWhitespace).reverse.dropWhile jsWhitespace).reverse

/-- JS `String.prototype.trim` (ASCII whitespace model). -/
def jsTrim (s : String) : String := String.mk (trimList s.data)

/-- JS `String.prototype.toUpperCase` (ASCII model). -/
def jsToUpper (s : String) : String := String.mk (s.data.map charUpper)

/-- JS `String.prototype.toLowerCase` (ASCII model). -/
def jsToLower (s : String) : String := String.mk (s.data.map charLower)

/-- Greedily take up to `n` leading characters satisfying `p`.  This is the
behaviour of the bounded regex quantifiers `{1,2}` / `?` over a character
class: take the leading run of the class, capped at `n`. -/
def takeUpTo (n : Nat) (p : Char → Bool) (cs : List Char) : List Char :=
  (cs.takeWhile p).take n

/--
The regex match `/^[A-Z]{1,2}\d{1,2}[A-Z]?/` from `extractDistrict`
(`src/utils/postcodeExtractor.js`).  Because the three character classes are
pairwise disjoint, the backtracking regex engine never backtracks on this
pattern, so the match is exactly the greedy bounded scan: up to two letters,
then up to two digits, then at most one letter, each run nonempty where the
quantifier requires it.
-/
def matchDistrict (cs : List Char) : Option (List Char) :=
  let ls := takeUpTo 2 isUpperAZ cs
  if ls = [] then none else
  let r1 := cs.drop ls.length
  let ds := takeUpTo 2 isDigitChar r1
  if ds = [] then none else
  let r2 := r1.drop ds.length
  let ts := takeUpTo 1 isUpperAZ r2
  some (ls ++ ds ++ ts)

/--
`extractDistrict(postcode)` from `src/utils/postcodeExtractor.js`:
reject falsy / non-string input (modelled by `none` and `""`), then
`postcode.trim().toUpperCase().match(/^[A-Z]{1,2}\d{1,2}[A-Z]?/)`,
returning the matched leading run or `null`.
-/
def extractDistrict : Option String → Option String
  | none => none
  | some s =>
    if s = "" then none
    else
      match matchDistrict (jsToUpper (jsTrim s)).data with
      | some cs => some (String.mk cs)
      | none => none

/-- The area-code match `district.match(/^[A-Z]{1,2}/i)` followed by
`.toUpperCase()`, from `groupDistrictsByArea`.  Returns `none` when the
string does not start with an ASCII letter. -/
def areaOf (d : String) : Option String :=
  let ls := takeUpTo 2 isLetterChar d.data
  if ls.isEmpty then none else some (String.mk (ls.map charUpper))

/-- JS `Set.prototype.add` on an insertion-ordered list model of a `Set`. -/
def setAdd (l : List String) (d : String) : List String :=
  if d ∈ l then l else l ++ [d]

/-- Insert `d` into the group keyed `a`, modelling
`acc[areaCode] = acc[areaCode] || new Set(); acc[areaCode].add(district)`:
an existing key keeps its position, a new key is appended. -/
def addToGroup (acc : List (String × List String)) (a : String) (d : String) :
    List (String × List String) :=
  if (acc.lookup a).isSome then
    acc.map (fun g => if g.1 = a then (g.1, setAdd g.2 d) else g)
  else
    acc ++ [(a, [d])]

/-- The body of the reducer in `groupDistrictsByArea`: a district with no
leading letters is skipped. -/
def groupStep (acc : List (String × List String)) (d : String) :
    List (String × List String) :=
  match areaOf d with
  | none => acc
  | some a => addToGroup acc a d

/--
`groupDistrictsByArea(districts)` from `src/utils/postcodeExtractor.js`:
reduce over the districts, grouping each district whose leading run matches
`/^[A-Z]{1,2}/i` under its uppercased area code; the district strings
themselves are stored verbatim.
-/
def groupDistrictsByArea (districts : List String) : List (String × List String) :=
  districts.foldl groupStep []

/-!
## NLP processor (`src/utils/nlpProcessor.js`)
-/

/-- The compromise NLP library, abstracted as the four tagging operations the
source uses on a document built from one string: the matched substrings of
`#Adjective+ #Noun+`, of `#Verb #Noun+`, the recognised organisation names and
the recognised topics (each via `.out('array')`). -/
structure Tagger where
  adjNoun : String → List String
  verbNoun : String → List String
  orgs : String → List String
  topics : String → List String

/-- JS `[...new Set(list)]`: de-duplicate keeping the first occurrence of each
element, preserving order (a `Set` built by repeated `add`). -/
def jsSetDedup (l : List String) : List String :=
  l.foldl setAdd []

/-- The body of `extractPhrases` on a nonempty string: concatenate the four
match classes, lowercase each phrase, and de-duplicate via a `Set`. -/
def extractPhrasesStr (tg : Tagger) (t : String) : List String :=
  jsSetDedup ((tg.adjNoun t ++ tg.verbNoun t ++ tg.orgs t ++ tg.topics t).map jsToLower)

/-- Embeds `extractPhrases(text)` from `src/utils/nlpProcessor.js`: falsy or
non-string input (modelled by `none` / `""`) yields `[]`. -/
def extractPhrases (tg : Tagger) : Option String → List String
  | none => []
  | some t => if t = "" then [] else extractPhrasesStr tg t

/-- The `COMMON_WORDS` stop list from `src/utils/nlpProcessor.js`, verbatim. -/
def COMMON_WORDS : List String :=
  ["the", "be", "to", "of", "and", "a", "in", "that", "have", "i",
   "it", "for", "not", "on", "with", "he", "as", "you", "do", "at",
   "this", "but", "his", "by", "from", "they", "we", "say", "her",
   "she", "or", "an", "will", "my", "one", "all", "would", "there",
   "their", "what", "so", "up", "out", "if", "about", "who", "get",
   "which", "go", "me", "when", "make", "can", "like", "time", "no",
   "just", "him", "know", "take", "people", "into", "year", "your",
   "good", "some", "could", "them", "see", "other", "than", "then",
   "now", "look", "only", "come", "its", "over", "think", "also",
   "back", "after", "use", "two", "how", "our", "work", "first",
   "well", "way", "even", "new", "want", "because", "any", "these",
   "give", "day", "most", "us"]

/-- The four `.found` checks of `isSignificantPhrase`: whether the tagger
finds any match of one of the four pattern classes in `s`. -/
def taggerFound (tg : Tagger) (s : String) : Bool :=
  !(tg.adjNoun s).isEmpty || !(tg.verbNoun s).isEmpty ||
  !(tg.orgs s).isEmpty || !(tg.topics s).isEmpty

/-- Embeds `isSignificantPhrase(phrase)` from `src/utils/nlpProcessor.js`: falsy or
non-string input is insignificant; otherwise normalise with
`phrase.toLowerCase().trim()`, reject stop-list members, and re-run the
tagger standalone on the normalised phrase. -/
def isSignificantPhrase (tg : Tagger) : Option String → Bool
  | none => false
  | some p =>
    if p = "" then false
    else
      let normalized := jsTrim (jsToLower p)
      if normalized ∈ COMMON_WORDS then false
      else taggerFound tg normalized

/-- The weight `phrase.includes(' ') ? 2 : 1` from `countPhraseFrequencies`. -/
def phraseWeight (p : String) : Nat :=
  if p.data.contains ' ' then 2 else 1

/-- Embeds `phraseCount[phrase] = (phraseCount[phrase] || 0) + weight` on the
insertion-ordered association-list model of a JS object: an existing key is
updated in place, a new key is appended. -/
def bump (m : List (String × Nat)) (p : String) (w : Nat) : List (String × Nat) :=
  if (m.lookup p).isSome then
    m.map (fun e => if e.1 = p then (e.1, e.2 + w) else e)
  else
    m ++ [(p, w)]

/-- The body of the inner `forEach` of `countPhraseFrequencies`: a phrase
that passes the significance filter bumps the frequency object by its
weight. -/
def countStep (tg : Tagger) (m : List (String × Nat)) (p : String) :
    List (String × Nat) :=
  if isSignificantPhrase tg (some p) then bump m p (phraseWeight p) else m

/-- The inner loop of `countPhraseFrequencies` over one text's extracted
phrases. -/
def countText (tg : Tagger) (m : List (String × Nat)) (t : String) :
    List (String × Nat) :=
  (extractPhrases tg (some t)).foldl (countStep tg) m

/-- A JS argument where the source only distinguishes arrays of texts from
everything else (`Array.isArray`); array entries are texts, with `none`
standing for `null`/`undefined`. -/
inductive JSArg where
  | array (texts : List (Option String))
  | notArray
deriving DecidableEq

/-- The body of the outer `forEach` of `countPhraseFrequencies`: falsy
entries (`null`, `undefined`, `""`) are skipped. -/
def countTextStep (tg : Tagger) (m : List (String × Nat)) :
    Option String → List (String × Nat)
  | none => m
  | some t => if t = "" then m else countText tg m t

/-- Embeds `countPhraseFrequencies(texts)` from `src/utils/nlpProcessor.js`:
non-array input yields `{}`; falsy entries (`null`, `undefined`, `""`) are
skipped; each remaining text's extracted significant phrases bump the
frequency object. -/
def countPhraseFrequencies (tg : Tagger) : JSArg → List (String × Nat)
  | .notArray => []
  | .array texts => texts.foldl (countTextStep tg) []

/-- A JS argument where the source only distinguishes truthy objects from
everything else (`!phraseCount || typeof phraseCount !== 'object'`); the
object case carries the insertion-ordered entries. -/
inductive JSFreq where
  | obj (entries : List (String × Nat))
  | notObj
deriving DecidableEq

/-- One step of a stable descending-by-count sort: insert `x` before the
first element whose count is at most `x`'s.  JS `Array.prototype.sort` is
required to be stable, and the comparator `(a, b) => b.count - a.count`
induces the total preorder "count descending"; every stable sort by that
preorder produces the same list, so this insertion sort is an exact model. -/
def insertDesc (x : String × Nat) : List (String × Nat) → List (String × Nat)
  | [] => [x]
  | y :: ys => if y.2 ≤ x.2 then x :: y :: ys else y :: insertDesc x ys

/-- Embeds `.sort((a, b) => b.count - a.count)` as a stable insertion sort. -/
def sortCountDesc (l : List (String × Nat)) : List (String × Nat) :=
  l.foldr insertDesc []

/-- JS `Array.prototype.slice(0, end)`: a negative `end` counts back from the
end of the array. -/
def jsSlice0 (l : List (String × Nat)) (e : Int) : List (String × Nat) :=
  if e < 0 then l.take ((l.length : Int) + e).toNat else l.take e.toNat

/-- Embeds `generateWordCloudData(phraseCount, limit)` from
`src/utils/nlpProcessor.js`: non-object input yields `[]`; otherwise map the
entries to `{value, count}` pairs, sort by count descending (stably) and
`slice(0, limit)`. -/
def generateWordCloudData (input : JSFreq) (limit : Int) : List (String × Nat) :=
  match input with
  | .notObj => []
  | .obj entries => jsSlice0 (sortCountDesc entries) limit

/-- Runs `generateWordCloudData` at its default `limit = 50`. -/
def generateWordCloudDataDefault (input : JSFreq) : List (String × Nat) :=
  generateWordCloudData input 50

/-- Embeds `processTextsToWordCloud(texts, limit)` from `src/utils/nlpProcessor.js`:
the composition of counting and ranking. -/
def processTextsToWordCloud (tg : Tagger) (texts : JSArg) (limit : Int) :
    List (String × Nat) :=
  generateWordCloudData (.obj (countPhraseFrequencies tg texts)) limit

/-- A concrete instance of the abstract tagger, recording what the compromise
library returns on the few inputs used in concrete evaluations below: on
"digital skills and digital skills" the pattern `#Adjective+ #Noun+` matches
at two positions, so `.out('array')` lists the phrase twice; on the
standalone phrase "digital skills" it matches once. -/
def cexTagger : Tagger where
  adjNoun := fun s =>
    if s = "digital skills and digital skills" then
      ["Digital skills", "digital skills"]
    else if s = "digital skills" then ["digital skills"]
    else []
  verbNoun := fun _ => []
  orgs := fun _ => []
  topics := fun _ => []

/-!
## Derived notions used to state the claims
-/

/-- Accumulate one text's contribution onto an optional running total: a zero
contribution leaves the map entry untouched (absent entries stay absent). -/
def addContrib (o : Option Nat) (w : Nat) : Option Nat :=
  if w = 0 then o else some (o.getD 0 + w)

/-- Whether one entry of the text sequence makes the phrase `q` count:
the entry is a nonempty text whose extracted phrase set contains `q`, and `q`
passes the significance filter. -/
def contributes (tg : Tagger) (q : String) : Option String → Bool
  | none => false
  | some t =>
    !(t == "") && decide (q ∈ extractPhrasesStr tg t) && isSignificantPhrase tg (some q)

/-- The weight one entry of the text sequence adds to phrase `q`'s count. -/
def textContrib (tg : Tagger) (q : String) (ot : Option String) : Nat :=
  if contributes tg q ot then phraseWeight q else 0

/-- The total weight accumulated for phrase `q` over a text sequence. -/
def totalWeight (tg : Tagger) (q : String) (texts : List (Option String)) : Nat :=
  (texts.map (textContrib tg q)).sum

/-- Whether a string starts with 1–2 ASCII uppercase letters followed by a
digit — exactly the condition under which the district regex
`/^[A-Z]{1,2}\d{1,2}[A-Z]?/` finds a match. -/
def startsLetterDigit : List Char → Bool
  | [] => false
  | c1 :: rest =>
    isUpperAZ c1 &&
      (match rest with
       | [] => false
       | c2 :: rest2 =>
         isDigitChar c2 ||
           (isUpperAZ c2 &&
             (match rest2 with
              | [] => false
              | c3 :: _ => isDigitChar c3)))

/-- The first character of `l`, if any, fails `p`. -/
def headNot (p : Char → Bool) : List Char → Prop
  | [] => True
  | c :: _ => p c = false

/-- The specification's description of the district match ("1–2 letters, then
1–2 digits, then optionally 1 trailing letter", leading, greedy but bounded):
`k` is a decomposition `letters ++ digits ++ optional-letter` at the start of
`t`, maximal in the bounded-greedy sense — the digit run stops below two
digits only when no digit follows, and the trailing letter is omitted only
when no letter follows. -/
def DistrictSpec (t k : List Char) : Prop :=
  ∃ ls ds ts rest,
    t = ls ++ ds ++ ts ++ rest ∧
    k = ls ++ ds ++ ts ∧
    (∀ c ∈ ls, isUpperAZ c = true) ∧ 1 ≤ ls.length ∧ ls.length ≤ 2 ∧
    (∀ c ∈ ds, isDigitChar c = true) ∧ 1 ≤ ds.length ∧ ds.length ≤ 2 ∧
    (∀ c ∈ ts, isUpperAZ c = true) ∧ ts.length ≤ 1 ∧
    (ds.length = 1 → ts = [] → headNot isDigitChar rest) ∧
    (ts = [] → headNot isUpperAZ rest)

end Qualmap

-- sanity examples (matching postcodeExtractor.test.js)
example : Qualmap.extractDistrict (some "NE1 4ST") = some "NE1" := by decide
example : Qualmap.extractDistrict (some "NE14ST") = some "NE14S" := by decide
example : Qualmap.extractDistrict (some "TS161AA") = some "TS16" := by decide
example : Qualmap.extractDistrict (some "sw1a 1aa") = some "SW1A" := by decide
example : Qualmap.extractDistrict (some "  NE1 4ST  ") = some "NE1" := by decide
example : Qualmap.extractDistrict (some "INVALID") = none := by decide
example : Qualmap.extractDistrict (some "123") = none := by decide
example : Qualmap.extractDistrict (some "AB") = none := by decide
example : Qualmap.extractDistrict (some "") = none := by decide
example : Qualmap.extractDistrict none = none := by decide
example :
    Qualmap.groupDistrictsByArea ["NE1", "NE2", "TS1"] =
      [("NE", ["NE1", "NE2"]), ("TS", ["TS1"])] := by decide
example : Qualmap.groupDistrictsByArea ["ne1"] = [("NE", ["ne1"])] := by decide

-- sanity examples for the NLP side
example :
    Qualmap.extractPhrases Qualmap.cexTagger
      (some "digital skills and digital skills") = ["digital skills"] := by decide
example :
    Qualmap.isSignificantPhrase Qualmap.cexTagger (some "digital skills") = true := by
  decide
example : Qualmap.isSignificantPhrase Qualmap.cexTagger (some "the") = false := by
  decide
example :
    Qualmap.countPhraseFrequencies Qualmap.cexTagger
      (.array [some "digital skills and digital skills"]) =
      [("digital skills", 2)] := by decide
example :
    Qualmap.generateWordCloudDataDefault
      (.obj [("a", 1), ("b", 10), ("c", 5)]) =
      [("b", 10), ("c", 5), ("a", 1)] := by decide
example :
    Qualmap.generateWordCloudData (.obj [("a", 1), ("b", 2), ("c", 3)]) (-1) =
      [("c", 3), ("b", 2)] := by decide

namespace Qualmap

/-! ### Lemmas about the stable ranking sort -/

theorem insertDesc_perm (x : String × Nat) (l : List (String × Nat)) :
    (insertDesc x l).Perm (x :: l) := by
  induction l with
  | nil => simp [insertDesc]
  | cons y ys ih =>
    by_cases h : y.2 ≤ x.2
    · simp [insertDesc, h]
    · simp only [insertDesc, if_neg h]
      exact ((ih.cons y).trans (List.Perm.swap x y ys))

theorem sortCountDesc_perm (l : List (String × Nat)) :
    (sortCountDesc l).Perm l := by
  induction l with
  | nil => simp [sortCountDesc]
  | cons x xs ih =>
    have hstep : sortCountDesc (x :: xs) = insertDesc x (sortCountDesc xs) := rfl
    rw [hstep]
    exact (insertDesc_perm x (sortCountDesc xs)).trans (ih.cons x)

theorem sortCountDesc_length (l : List (String × Nat)) :
    (sortCountDesc l).length = l.length :=
  (sortCountDesc_perm l).length_eq

theorem insertDesc_pairwise (x : String × Nat) (l : List (String × Nat))
    (h : l.Pairwise (fun a b => b.2 ≤ a.2)) :
    (insertDesc x l).Pairwise (fun a b => b.2 ≤ a.2) := by
  induction l with
  | nil => simp [insertDesc]
  | cons y ys ih =>
    rcases List.pairwise_cons.mp h with ⟨hy, hys⟩
    by_cases hle : y.2 ≤ x.2
    · simp only [insertDesc, if_pos hle]
      refine List.pairwise_cons.mpr ⟨?_, h⟩
      intro z hz
      rcases List.mem_cons.mp hz with rfl | hz'
      · exact hle
      · exact le_trans (hy z hz') hle
    · simp only [insertDesc, if_neg hle]
      refine List.pairwise_cons.mpr ⟨?_, ih hys⟩
      intro z hz
      have hz' : z = x ∨ z ∈ ys :=
        List.mem_cons.mp ((List.Perm.mem_iff (insertDesc_perm x ys)).mp hz)
      rcases hz' with rfl | hz'
      · exact le_of_lt (lt_of_not_le hle)
      · exact hy z hz'

theorem sortCountDesc_pairwise (l : List (String × Nat)) :
    (sortCountDesc l).Pairwise (fun a b => b.2 ≤ a.2) := by
  induction l with
  | nil => simp [sortCountDesc]
  | cons x xs ih => exact insertDesc_pairwise x (sortCountDesc xs) ih

theorem filter_insertDesc_self (x : String × Nat) (l : List (String × Nat)) :
    (insertDesc x l).filter (fun e => e.2 == x.2) =
      x :: l.filter (fun e => e.2 == x.2) := by
  induction l with
  | nil => simp [insertDesc]
  | cons y ys ih =>
    by_cases hle : y.2 ≤ x.2
    · simp [insertDesc, if_pos hle, List.filter_cons]
    · have hne : (y.2 == x.2) = false := by
        simp only [beq_eq_false_iff_ne, ne_eq]
        exact fun h => hle (le_of_eq h)
      simp [insertDesc, if_neg hle, List.filter_cons, hne, ih]

theorem filter_insertDesc_ne (x : String × Nat) (l : List (String × Nat))
    (w : Nat) (hw : x.2 ≠ w) :
    (insertDesc x l).filter (fun e => e.2 == w) =
      l.filter (fun e => e.2 == w) := by
  induction l with
  | nil => simp [insertDesc, List.filter_cons, hw]
  | cons y ys ih =>
    by_cases hle : y.2 ≤ x.2
    · simp [insertDesc, if_pos hle, List.filter_cons, hw]
    · simp [insertDesc, if_neg hle, List.filter_cons, ih]

/-- Stability of the ranking sort: for every fixed weight, the sorted list
restricted to that weight is the input list restricted to that weight, in the
input's (insertion) order. -/
theorem sortCountDesc_filter (l : List (String × Nat)) (w : Nat) :
    (sortCountDesc l).filter (fun e => e.2 == w) =
      l.filter (fun e => e.2 == w) := by
  induction l with
  | nil => rfl
  | cons x xs ih =>
    have hstep : sortCountDesc (x :: xs) = insertDesc x (sortCountDesc xs) := rfl
    rw [hstep]
    by_cases hx : x.2 = w
    · subst hx
      rw [filter_insertDesc_self, ih, List.filter_cons]
      simp
    · rw [filter_insertDesc_ne x _ w hx, ih, List.filter_cons]
      simp [hx]

theorem jsSlice0_length_nonneg (l : List (String × Nat)) (e : Int) (he : 0 ≤ e) :
    (jsSlice0 l e).length = min e.toNat l.length := by
  simp [jsSlice0, not_lt.mpr he, List.length_take]

theorem jsSlice0_length_neg (l : List (String × Nat)) (e : Int) (he : e < 0) :
    (jsSlice0 l e).length = l.length - (-e).toNat := by
  simp only [jsSlice0, if_pos he, List.length_take]
  omega

/-- C2: the ranker (`generateWordCloudData`) slices the stable
descending-by-count sort of the frequency map's entries: the sorted sequence
is a permutation of the entries, its counts are descending, entries of equal
count keep the map's insertion order (filtering the output at any fixed
weight reproduces the input's order), and
`rankTop({a:1, b:10, c:5})` is `[{b,10}, {c,5}, {a,1}]`. -/
theorem claim_C2_ranking_order (entries : List (String × Nat)) :
    (∀ limit, generateWordCloudData (.obj entries) limit
        = jsSlice0 (sortCountDesc entries) limit)
  ∧ (sortCountDesc entries).Perm entries
  ∧ (sortCountDesc entries).Pairwise (fun a b => b.2 ≤ a.2)
  ∧ (∀ w, (sortCountDesc entries).filter (fun e => e.2 == w)
        = entries.filter (fun e => e.2 == w))
  ∧ generateWordCloudDataDefault (.obj [("a", 1), ("b", 10), ("c", 5)])
      = [("b", 10), ("c", 5), ("a", 1)] :=
  ⟨fun _ => rfl, sortCountDesc_perm entries, sortCountDesc_pairwise entries,
    fun w => sortCountDesc_filter entries w, by decide⟩

/-- C3 (amended): for a nonnegative `limit` the ranker returns
`min limit entries` entries — all of them, in sorted order, when fewer than
`limit` exist — and an empty sequence for non-map input or `limit = 0`;
a **negative** `limit`, however, follows JS `slice(0, limit)` semantics and
returns all but the last `|limit|` sorted entries.  The default limit is
50. -/
theorem claim_C3_limit_enforcement (entries : List (String × Nat)) (limit : Int) :
    (0 ≤ limit →
      (generateWordCloudData (.obj entries) limit).length
        = min limit.toNat entries.length)
  ∧ ((entries.length : Int) ≤ limit →
      generateWordCloudData (.obj entries) limit = sortCountDesc entries)
  ∧ generateWordCloudData (.obj entries) 0 = []
  ∧ (limit < 0 →
      (generateWordCloudData (.obj entries) limit).length
        = entries.length - (-limit).toNat)
  ∧ generateWordCloudData .notObj limit = []
  ∧ (generateWordCloudDataDefault (.obj entries)).length = min 50 entries.length := by
  refine ⟨?_, ?_, ?_, ?_, rfl, ?_⟩
  · intro h
    show (jsSlice0 (sortCountDesc entries) limit).length = _
    rw [jsSlice0_length_nonneg _ _ h, sortCountDesc_length]
  · intro h
    show jsSlice0 (sortCountDesc entries) limit = sortCountDesc entries
    have h0 : ¬ limit < 0 := by omega
    have hlen : (sortCountDesc entries).length ≤ limit.toNat := by
      rw [sortCountDesc_length]; omega
    simp only [jsSlice0, if_neg h0]
    exact List.take_of_length_le hlen
  · show jsSlice0 (sortCountDesc entries) 0 = []
    simp [jsSlice0]
  · intro h
    show (jsSlice0 (sortCountDesc entries) limit).length = _
    rw [jsSlice0_length_neg _ _ h, sortCountDesc_length]
  · show (jsSlice0 (sortCountDesc entries) 50).length = _
    rw [jsSlice0_length_nonneg _ _ (by omega), sortCountDesc_length]
    rfl

/-- C3 counterexample: contrary to the claim, a negative `limit` does not
yield an empty sequence — `slice(0, -1)` drops only the final entry of the
sorted sequence. -/
theorem claim_C3_counterexample :
    generateWordCloudData (.obj [("a", 1), ("b", 2), ("c", 3)]) (-1)
      = [("c", 3), ("b", 2)]
  ∧ generateWordCloudData (.obj [("a", 1), ("b", 2), ("c", 3)]) (-1) ≠ [] :=
  ⟨by decide, by decide⟩

/-- C3 witness: the amended theorem instantiated on a two-entry map with
`limit = 10`. -/
theorem claim_C3_witness :
    ((generateWordCloudData (.obj [("x", 1), ("y", 2)]) 10).length
      = min (10 : Int).toNat ([("x", 1), ("y", 2)] : List (String × Nat)).length)
  ∧ generateWordCloudData (.obj [("x", 1), ("y", 2)]) 10
      = sortCountDesc [("x", 1), ("y", 2)] :=
  ⟨(claim_C3_limit_enforcement [("x", 1), ("y", 2)] 10).1 (by omega),
    (claim_C3_limit_enforcement [("x", 1), ("y", 2)] 10).2.1 (by decide)⟩

/-! ### Lookup lemmas for the insertion-ordered object model -/

theorem lookup_cons_self {β : Type} (k : String) (v : β) (es : List (String × β)) :
    ((k, v) :: es).lookup k = some v := by
  have hb : (k == k) = true := beq_self_eq_true k
  rw [List.lookup_cons, hb]

theorem lookup_cons_ne {β : Type} (k q : String) (v : β) (es : List (String × β))
    (h : q ≠ k) : ((k, v) :: es).lookup q = es.lookup q := by
  have hb : (q == k) = false := beq_eq_false_iff_ne.mpr h
  rw [List.lookup_cons, hb]

theorem lookup_bump_map_self (m : List (String × Nat)) (p : String) (w : Nat) :
    (m.map (fun e => if e.1 = p then (e.1, e.2 + w) else e)).lookup p
      = (m.lookup p).map (· + w) := by
  induction m with
  | nil => rfl
  | cons e m' ih =>
    obtain ⟨k, v⟩ := e
    simp only [List.map_cons]
    by_cases hk : k = p
    · subst hk
      rw [if_pos rfl, lookup_cons_self, lookup_cons_self]
      rfl
    · rw [if_neg hk, lookup_cons_ne k p v _ (Ne.symm hk),
        lookup_cons_ne k p v m' (Ne.symm hk), ih]

theorem lookup_bump_map_ne (m : List (String × Nat)) (p q : String) (w : Nat)
    (h : q ≠ p) :
    (m.map (fun e => if e.1 = p then (e.1, e.2 + w) else e)).lookup q
      = m.lookup q := by
  induction m with
  | nil => rfl
  | cons e m' ih =>
    obtain ⟨k, v⟩ := e
    simp only [List.map_cons]
    by_cases hk : k = p
    · subst hk
      rw [if_pos rfl, lookup_cons_ne k q _ _ h, lookup_cons_ne k q v m' h, ih]
    · rw [if_neg hk]
      by_cases hqk : q = k
      · subst hqk
        rw [lookup_cons_self, lookup_cons_self]
      · rw [lookup_cons_ne k q v _ hqk, lookup_cons_ne k q v m' hqk, ih]

theorem lookup_append_single_self {β : Type} (m : List (String × β))
    (p : String) (v : β) (h : m.lookup p = none) :
    (m ++ [(p, v)]).lookup p = some v := by
  induction m with
  | nil => exact lookup_cons_self p v []
  | cons e m' ih =>
    obtain ⟨k, w⟩ := e
    by_cases hpk : p = k
    · subst hpk
      rw [lookup_cons_self] at h
      exact absurd h (by simp)
    · rw [lookup_cons_ne k p w m' hpk] at h
      rw [List.cons_append, lookup_cons_ne k p w _ hpk]
      exact ih h

theorem lookup_append_single_ne {β : Type} (m : List (String × β))
    (p q : String) (v : β) (h : q ≠ p) :
    (m ++ [(p, v)]).lookup q = m.lookup q := by
  induction m with
  | nil =>
    show [(p, v)].lookup q = none
    rw [lookup_cons_ne p q v [] h]
    rfl
  | cons e m' ih =>
    obtain ⟨k, w⟩ := e
    by_cases hqk : q = k
    · subst hqk
      rw [List.cons_append, lookup_cons_self, lookup_cons_self]
    · rw [List.cons_append, lookup_cons_ne k q w _ hqk,
        lookup_cons_ne k q w m' hqk, ih]

theorem lookup_bump_self (m : List (String × Nat)) (p : String) (w : Nat) :
    (bump m p w).lookup p = some ((m.lookup p).getD 0 + w) := by
  unfold bump
  by_cases hs : (m.lookup p).isSome = true
  · rw [if_pos hs, lookup_bump_map_self]
    obtain ⟨v, h⟩ := Option.isSome_iff_exists.mp hs
    rw [h]
    rfl
  · rw [if_neg hs]
    have h : m.lookup p = none := Option.not_isSome_iff_eq_none.mp hs
    rw [lookup_append_single_self m p w h, h]
    simp

theorem lookup_bump_ne (m : List (String × Nat)) (p q : String) (w : Nat)
    (h : q ≠ p) :
    (bump m p w).lookup q = m.lookup q := by
  unfold bump
  by_cases hs : (m.lookup p).isSome = true
  · rw [if_pos hs]
    exact lookup_bump_map_ne m p q w h
  · rw [if_neg hs]
    exact lookup_append_single_ne m p q w h

/-! ### The frequency-count characterisation -/

theorem phraseWeight_ne_zero (p : String) : phraseWeight p ≠ 0 := by
  unfold phraseWeight
  split <;> omega

theorem lookup_foldl_countStep_not_mem (tg : Tagger) (ps : List String)
    (m : List (String × Nat)) (q : String) (h : q ∉ ps) :
    (ps.foldl (countStep tg) m).lookup q = m.lookup q := by
  induction ps generalizing m with
  | nil => rfl
  | cons p ps' ih =>
    have hqp : q ≠ p := fun hqp => h (hqp ▸ List.mem_cons_self p ps')
    have h' : q ∉ ps' := fun hq => h (List.mem_cons_of_mem p hq)
    rw [List.foldl_cons, ih _ h']
    unfold countStep
    split
    · exact lookup_bump_ne m p q _ hqp
    · rfl

theorem lookup_foldl_countStep (tg : Tagger) (ps : List String)
    (m : List (String × Nat)) (q : String) (hnd : ps.Nodup) :
    (ps.foldl (countStep tg) m).lookup q =
      if q ∈ ps ∧ isSignificantPhrase tg (some q) = true
      then some ((m.lookup q).getD 0 + phraseWeight q)
      else m.lookup q := by
  induction ps generalizing m with
  | nil => simp
  | cons p ps' ih =>
    rw [List.nodup_cons] at hnd
    obtain ⟨hp, hnd'⟩ := hnd
    by_cases hq : q = p
    · subst hq
      rw [List.foldl_cons, lookup_foldl_countStep_not_mem tg ps' _ q hp]
      unfold countStep
      by_cases hsig : isSignificantPhrase tg (some q) = true
      · simp [hsig, lookup_bump_self]
      · simp [hsig]
    · rw [List.foldl_cons, ih _ hnd']
      have hm' : (countStep tg m p).lookup q = m.lookup q := by
        unfold countStep
        split
        · exact lookup_bump_ne m p q _ hq
        · rfl
      rw [hm']
      simp only [List.mem_cons, hq, false_or]

theorem setAdd_of_mem (l : List String) (d : String) (h : d ∈ l) :
    setAdd l d = l := by
  rw [setAdd, if_pos h]

theorem setAdd_of_not_mem (l : List String) (d : String) (h : d ∉ l) :
    setAdd l d = l ++ [d] := by
  rw [setAdd, if_neg h]

theorem nodup_jsSetDedup_aux (l : List String) (acc : List String)
    (h : acc.Nodup) : (l.foldl setAdd acc).Nodup := by
  induction l generalizing acc with
  | nil => exact h
  | cons x l' ih =>
    rw [List.foldl_cons]
    by_cases hx : x ∈ acc
    · rw [setAdd_of_mem acc x hx]
      exact ih _ h
    · rw [setAdd_of_not_mem acc x hx]
      refine ih _ ?_
      simp [List.nodup_append, h, hx]

theorem nodup_jsSetDedup (l : List String) : (jsSetDedup l).Nodup :=
  nodup_jsSetDedup_aux l [] List.nodup_nil

theorem mem_jsSetDedup_aux (l : List String) (acc : List String) (x : String) :
    x ∈ l.foldl setAdd acc ↔ x ∈ acc ∨ x ∈ l := by
  induction l generalizing acc with
  | nil => simp
  | cons y l' ih =>
    rw [List.foldl_cons]
    by_cases hy : y ∈ acc
    · rw [setAdd_of_mem acc y hy, ih]
      constructor
      · rintro (hx | hx)
        · exact Or.inl hx
        · exact Or.inr (List.mem_cons_of_mem y hx)
      · rintro (hx | hx)
        · exact Or.inl hx
        · rcases List.mem_cons.mp hx with rfl | hx'
          · exact Or.inl hy
          · exact Or.inr hx'
    · rw [setAdd_of_not_mem acc y hy, ih]
      simp only [List.mem_append, List.mem_singleton, List.mem_cons]
      tauto

theorem mem_jsSetDedup (l : List String) (x : String) :
    x ∈ jsSetDedup l ↔ x ∈ l := by
  rw [jsSetDedup, mem_jsSetDedup_aux]
  simp

theorem lookup_countText (tg : Tagger) (m : List (String × Nat)) (t : String)
    (q : String) :
    (countText tg m t).lookup q
      = addContrib (m.lookup q) (textContrib tg q (some t)) := by
  by_cases ht : t = ""
  · subst ht
    simp [countText, extractPhrases, textContrib, contributes, addContrib]
  · have hext : extractPhrases tg (some t) = extractPhrasesStr tg t := by
      simp [extractPhrases, ht]
    have hnd : (extractPhrasesStr tg t).Nodup := nodup_jsSetDedup _
    rw [countText, hext, lookup_foldl_countStep tg _ m q hnd]
    by_cases hc : q ∈ extractPhrasesStr tg t ∧ isSignificantPhrase tg (some q) = true
    · have hcon : contributes tg q (some t) = true := by
        simp [contributes, ht, hc.1, hc.2]
      simp [hc, textContrib, hcon, addContrib, phraseWeight_ne_zero q]
    · have hcon : contributes tg q (some t) = false := by
        rcases not_and_or.mp hc with hn | hn
        · simp [contributes, hn]
        · have hsig : isSignificantPhrase tg (some q) = false := by
            revert hn
            cases isSignificantPhrase tg (some q) <;> simp
          simp [contributes, hsig]
      simp [hc, textContrib, hcon, addContrib]

theorem lookup_foldl_countTextStep (tg : Tagger) (texts : List (Option String))
    (m : List (String × Nat)) (q : String) :
    (texts.foldl (countTextStep tg) m).lookup q
      = (texts.map (textContrib tg q)).foldl addContrib (m.lookup q) := by
  induction texts generalizing m with
  | nil => rfl
  | cons ot ts ih =>
    rw [List.foldl_cons, ih, List.map_cons, List.foldl_cons]
    have hstep : (countTextStep tg m ot).lookup q
        = addContrib (m.lookup q) (textContrib tg q ot) := by
      cases ot with
      | none => simp [countTextStep, textContrib, contributes, addContrib]
      | some t =>
        by_cases ht : t = ""
        · subst ht
          simp [countTextStep, textContrib, contributes, addContrib]
        · simp only [countTextStep, if_neg ht]
          exact lookup_countText tg m t q
    rw [hstep]

theorem foldl_addContrib_sum (ws : List Nat) (o : Option Nat) :
    ws.foldl addContrib o
      = if ws.sum = 0 then o else some (o.getD 0 + ws.sum) := by
  induction ws generalizing o with
  | nil => simp
  | cons w ws' ih =>
    rw [List.foldl_cons, ih]
    by_cases hw : w = 0
    · subst hw
      simp [addContrib]
    · by_cases hs : ws'.sum = 0
      · simp [addContrib, hw, hs]
      · have h1 : ¬ (w + ws'.sum = 0) := by omega
        simp [addContrib, hw, hs, h1, Nat.add_assoc]

theorem countPhraseFrequencies_lookup (tg : Tagger)
    (texts : List (Option String)) (q : String) :
    (countPhraseFrequencies tg (.array texts)).lookup q
      = if totalWeight tg q texts = 0 then none
        else some (totalWeight tg q texts) := by
  show ((texts.foldl (countTextStep tg) []).lookup q) = _
  rw [lookup_foldl_countTextStep tg texts [] q]
  show (texts.map (textContrib tg q)).foldl addContrib none = _
  rw [foldl_addContrib_sum]
  simp [totalWeight]

theorem totalWeight_eq_mul (tg : Tagger) (q : String)
    (texts : List (Option String)) :
    totalWeight tg q texts = phraseWeight q * texts.countP (contributes tg q) := by
  induction texts with
  | nil => simp [totalWeight]
  | cons ot ts ih =>
    show textContrib tg q ot + totalWeight tg q ts = _
    rw [List.countP_cons, ih, textContrib]
    by_cases hc : contributes tg q ot = true
    · simp only [hc]
      simp
      ring
    · have hc' : contributes tg q ot = false := by
        revert hc
        cases contributes tg q ot <;> simp
      simp [hc']

theorem totalWeight_append (tg : Tagger) (q : String)
    (ts1 ts2 : List (Option String)) :
    totalWeight tg q (ts1 ++ ts2)
      = totalWeight tg q ts1 + totalWeight tg q ts2 := by
  simp [totalWeight]

/-- C1 (amended): `countPhraseFrequencies` gives each counted phrase weight 2
per **text** when it contains a space and weight 1 per text otherwise, and
the weights accumulate additively across texts — but, because extraction
de-duplicates the phrases of each text, a phrase occurring several times in a
single text is counted only **once** for that text: the final value is the
weight multiplied by the number of texts whose extracted significant phrase
set contains the phrase. -/
theorem claim_C1_weighting (tg : Tagger) (texts : List (Option String))
    (q : String) :
    ((countPhraseFrequencies tg (.array texts)).lookup q
      = if totalWeight tg q texts = 0 then none
        else some (totalWeight tg q texts))
  ∧ totalWeight tg q texts = phraseWeight q * texts.countP (contributes tg q)
  ∧ phraseWeight q = (if q.data.contains ' ' then 2 else 1)
  ∧ (∀ ts1 ts2, totalWeight tg q (ts1 ++ ts2)
      = totalWeight tg q ts1 + totalWeight tg q ts2) :=
  ⟨countPhraseFrequencies_lookup tg texts q, totalWeight_eq_mul tg q texts,
    rfl, totalWeight_append tg q⟩

/-- C1 counterexample: with the recorded tagger behaviour the phrase
"digital skills" occurs (is matched) twice inside the single text
"digital skills and digital skills", yet its accumulated weight is 2, not
2 + 2 = 4 — occurrences inside one text are collapsed by the `Set`
de-duplication in `extractPhrases`, contradicting "a phrase appearing twice
in one text contributes its weight twice". -/
theorem claim_C1_counterexample :
    cexTagger.adjNoun "digital skills and digital skills"
      = ["Digital skills", "digital skills"]
  ∧ (countPhraseFrequencies cexTagger
      (.array [some "digital skills and digital skills"])).lookup
        "digital skills" = some 2
  ∧ (2 : Nat) ≠ 2 + 2 :=
  ⟨by decide, by decide, by decide⟩

/-- C10: every value stored by `countPhraseFrequencies` is strictly positive,
and the value of every key containing a space character is even. -/
theorem claim_C10_count_invariants (tg : Tagger) (input : JSArg) (q : String)
    (w : Nat) (h : (countPhraseFrequencies tg input).lookup q = some w) :
    0 < w ∧ (q.data.contains ' ' = true → w % 2 = 0) := by
  cases input with
  | notArray => simp [countPhraseFrequencies] at h
  | array texts =>
    rw [countPhraseFrequencies_lookup tg texts q] at h
    by_cases h0 : totalWeight tg q texts = 0
    · rw [if_pos h0] at h
      exact absurd h (by simp)
    · rw [if_neg h0] at h
      have hw : w = totalWeight tg q texts := (Option.some_inj.mp h).symm
      subst hw
      refine ⟨Nat.pos_of_ne_zero h0, ?_⟩
      intro hsp
      rw [totalWeight_eq_mul tg q texts]
      have hpw : phraseWeight q = 2 := by rw [phraseWeight, if_pos hsp]
      rw [hpw]
      omega

/-- C10 witness: a concrete frequency map entry — "digital skills" counted
once from one text — satisfies the invariants. -/
theorem claim_C10_witness :
    (countPhraseFrequencies cexTagger (.array [some "digital skills"])).lookup
        "digital skills" = some 2
  ∧ (0 < 2 ∧ (("digital skills" : String).data.contains ' ' = true → 2 % 2 = 0)) :=
  ⟨by decide,
    claim_C10_count_invariants cexTagger (.array [some "digital skills"])
      "digital skills" 2 (by decide)⟩

/-! ### Lemmas about the bounded-greedy character scan -/

theorem takeWhile_append_all (p : Char → Bool) (a r : List Char)
    (ha : ∀ c ∈ a, p c = true) :
    (a ++ r).takeWhile p = a ++ r.takeWhile p := by
  induction a with
  | nil => rfl
  | cons c a' ih =>
    rw [List.cons_append, List.takeWhile_cons,
      if_pos (ha c (List.mem_cons_self c a')), ih fun x hx => ha x (List.mem_cons_of_mem c hx)]
    rfl

theorem takeUpTo_eq (n : Nat) (p : Char → Bool) (a r : List Char)
    (ha : ∀ c ∈ a, p c = true) (hlen : a.length ≤ n)
    (hstop : a.length = n ∨ headNot p r) :
    takeUpTo n p (a ++ r) = a := by
  rw [takeUpTo, takeWhile_append_all p a r ha]
  rcases hstop with hn | hr
  · subst hn
    rw [List.take_append_eq_append_take, List.take_length, Nat.sub_self,
      List.take_zero, List.append_nil]
  · have hrw : r.takeWhile p = [] := by
      cases r with
      | nil => rfl
      | cons c r' =>
        have hc : p c = false := hr
        rw [List.takeWhile_cons, if_neg (by simp [hc])]
    rw [hrw, List.append_nil]
    exact List.take_of_length_le hlen

theorem takeUpTo_append_drop (n : Nat) (p : Char → Bool) (t : List Char) :
    takeUpTo n p t ++ t.drop (takeUpTo n p t).length = t := by
  induction t generalizing n with
  | nil => simp [takeUpTo]
  | cons c t' ih =>
    by_cases hc : p c = true
    · cases n with
      | zero => rfl
      | succ n' =>
        have hstep : takeUpTo (n' + 1) p (c :: t') = c :: takeUpTo n' p t' := by
          rw [takeUpTo, takeUpTo, List.takeWhile_cons, if_pos hc, List.take_succ_cons]
        rw [hstep, List.length_cons, List.cons_append, List.drop_succ_cons, ih n']
    · have hc' : p c = false := by revert hc; cases p c <;> simp
      have hstep : takeUpTo n p (c :: t') = [] := by
        rw [takeUpTo, List.takeWhile_cons, if_neg (by simp [hc']), List.take_nil]
      rw [hstep, List.length_nil, List.drop_zero, List.nil_append]

theorem takeUpTo_all (n : Nat) (p : Char → Bool) (t : List Char) :
    ∀ c ∈ takeUpTo n p t, p c = true := by
  intro c hc
  exact List.mem_takeWhile_imp (List.take_subset n _ hc)

theorem takeUpTo_length_le (n : Nat) (p : Char → Bool) (t : List Char) :
    (takeUpTo n p t).length ≤ n := by
  rw [takeUpTo, List.length_take]
  omega

theorem drop_length_takeWhile (p : Char → Bool) (t : List Char) :
    t.drop (t.takeWhile p).length = t.dropWhile p := by
  induction t with
  | nil => rfl
  | cons c t' ih =>
    by_cases hc : p c = true
    · rw [List.takeWhile_cons, if_pos hc, List.length_cons, List.drop_succ_cons, ih,
        List.dropWhile_cons, if_pos hc]
    · have hc' : p c = false := by revert hc; cases p c <;> simp
      rw [List.takeWhile_cons, if_neg (by simp [hc']), List.length_nil, List.drop_zero,
        List.dropWhile_cons, if_neg (by simp [hc'])]

theorem headNot_dropWhile (p : Char → Bool) (t : List Char) :
    headNot p (t.dropWhile p) := by
  induction t with
  | nil => trivial
  | cons c t' ih =>
    by_cases hc : p c = true
    · rw [List.dropWhile_cons, if_pos hc]
      exact ih
    · have hc' : p c = false := by revert hc; cases p c <;> simp
      rw [List.dropWhile_cons, if_neg (by simp [hc'])]
      exact hc'

theorem takeUpTo_stop (n : Nat) (p : Char → Bool) (t : List Char)
    (h : (takeUpTo n p t).length < n) :
    headNot p (t.drop (takeUpTo n p t).length) := by
  have htw : takeUpTo n p t = t.takeWhile p := by
    rw [takeUpTo] at h ⊢
    rw [List.length_take] at h
    exact List.take_of_length_le (by omega)
  rw [htw, drop_length_takeWhile]
  exact headNot_dropWhile p t

theorem not_upper_of_digit (c : Char) (h : isDigitChar c = true) :
    isUpperAZ c = false := by
  simp only [isDigitChar, Bool.and_eq_true, decide_eq_true_eq] at h
  simp only [isUpperAZ, Bool.and_eq_false_iff, decide_eq_false_iff_not]
  omega

theorem not_digit_of_upper (c : Char) (h : isUpperAZ c = true) :
    isDigitChar c = false := by
  simp only [isUpperAZ, Bool.and_eq_true, decide_eq_true_eq] at h
  simp only [isDigitChar, Bool.and_eq_false_iff, decide_eq_false_iff_not]
  omega

/-- The regex scan succeeds with result `k` exactly when `k` is the
specification's bounded-greedy decomposition of the leading run of `t`. -/
theorem matchDistrict_some_iff (t k : List Char) :
    matchDistrict t = some k ↔ DistrictSpec t k := by
  constructor
  · intro h
    simp only [matchDistrict] at h
    set ls := takeUpTo 2 isUpperAZ t with hls
    by_cases h1 : ls = []
    · rw [if_pos h1] at h
      exact absurd h (by simp)
    rw [if_neg h1] at h
    set r1 := t.drop ls.length with hr1
    set ds := takeUpTo 2 isDigitChar r1 with hds
    by_cases h2 : ds = []
    · rw [if_pos h2] at h
      exact absurd h (by simp)
    rw [if_neg h2] at h
    set r2 := r1.drop ds.length with hr2
    set ts := takeUpTo 1 isUpperAZ r2 with hts
    have hk : k = ls ++ ds ++ ts := (Option.some_inj.mp h).symm
    refine ⟨ls, ds, ts, r2.drop ts.length, ?_, hk, ?_, ?_, ?_, ?_, ?_, ?_, ?_, ?_, ?_, ?_⟩
    · have e1 : t = ls ++ r1 := (takeUpTo_append_drop 2 isUpperAZ t).symm
      have e2 : r1 = ds ++ r2 := (takeUpTo_append_drop 2 isDigitChar r1).symm
      have e3 : r2 = ts ++ r2.drop ts.length := (takeUpTo_append_drop 1 isUpperAZ r2).symm
      calc t = ls ++ r1 := e1
        _ = ls ++ (ds ++ r2) := by rw [← e2]
        _ = ls ++ ds ++ ts ++ r2.drop ts.length := by
            nth_rewrite 1 [e3]
            simp [List.append_assoc]
    · exact takeUpTo_all 2 isUpperAZ t
    · exact List.length_pos.mpr h1
    · exact takeUpTo_length_le 2 isUpperAZ t
    · exact takeUpTo_all 2 isDigitChar r1
    · exact List.length_pos.mpr h2
    · exact takeUpTo_length_le 2 isDigitChar r1
    · exact takeUpTo_all 1 isUpperAZ r2
    · exact takeUpTo_length_le 1 isUpperAZ r2
    · intro hds1 htsnil
      have hlt : ds.length < 2 := by omega
      have hstop := takeUpTo_stop 2 isDigitChar r1 hlt
      rw [← hds] at hstop
      rw [htsnil]
      simpa using hstop
    · intro htsnil
      have hlt : ts.length < 1 := by rw [htsnil]; simp
      have hstop := takeUpTo_stop 1 isUpperAZ r2 hlt
      rw [← hts] at hstop
      rw [htsnil] at hstop
      rw [htsnil]
      simpa using hstop
  · rintro ⟨ls, ds, ts, rest, ht, hk, hlsall, hls1, hls2, hdsall, hds1, hds2,
      htsall, hts1, hdg, htg⟩
    obtain ⟨d, ds', rfl⟩ : ∃ d ds', ds = d :: ds' := by
      cases ds with
      | nil => simp at hds1
      | cons d ds' => exact ⟨d, ds', rfl⟩
    have ht' : t = ls ++ ((d :: ds') ++ (ts ++ rest)) := by
      rw [ht]
      simp [List.append_assoc]
    have hml : takeUpTo 2 isUpperAZ t = ls := by
      rw [ht']
      exact takeUpTo_eq 2 isUpperAZ ls ((d :: ds') ++ (ts ++ rest)) hlsall hls2
        (Or.inr (not_upper_of_digit d (hdsall d (List.mem_cons_self d ds'))))
    have hmd : takeUpTo 2 isDigitChar ((d :: ds') ++ (ts ++ rest)) = d :: ds' := by
      apply takeUpTo_eq 2 isDigitChar (d :: ds') (ts ++ rest) hdsall hds2
      rcases Nat.lt_or_ge (d :: ds').length 2 with hlen | hlen
      · right
        have hlen1 : (d :: ds').length = 1 := by omega
        cases ts with
        | nil => exact hdg hlen1 rfl
        | cons c ts' => exact not_digit_of_upper c (htsall c (List.mem_cons_self c ts'))
      · left
        omega
    have hmt : takeUpTo 1 isUpperAZ (ts ++ rest) = ts := by
      apply takeUpTo_eq 1 isUpperAZ ts rest htsall hts1
      cases ts with
      | nil => exact Or.inr (htg rfl)
      | cons c ts' =>
        left
        simp only [List.length_cons] at hts1 ⊢
        omega
    show matchDistrict t = some k
    simp only [matchDistrict]
    rw [hml]
    have hlsne : ls ≠ [] := by
      intro hnil
      rw [hnil] at hls1
      simp at hls1
    rw [if_neg hlsne, ht', List.drop_left, hmd]
    have hdsne : (d :: ds') ≠ [] := by simp
    rw [if_neg hdsne, List.drop_left, hmt, hk]

theorem mk_data (s : String) : String.mk s.data = s := rfl

/-- Theorem: `extractDistrict` succeeds with key `k` exactly when the specification's
bounded-greedy decomposition applies to the trimmed, uppercased input. -/
theorem extractDistrict_some_iff (s k : String) :
    extractDistrict (some s) = some k ↔
      DistrictSpec (jsToUpper (jsTrim s)).data k.data := by
  by_cases hs : s = ""
  · subst hs
    constructor
    · intro h
      simp [extractDistrict] at h
    · rintro ⟨ls, ds, ts, rest, ht, -, -, hls1, -, -, -, -, -, -, -, -⟩
      have h0 : (jsToUpper (jsTrim "")).data = [] := rfl
      rw [h0] at ht
      have hlen := congrArg List.length ht
      simp [List.length_append] at hlen
      omega
  · have hunf : extractDistrict (some s)
        = match matchDistrict (jsToUpper (jsTrim s)).data with
          | some cs => some (String.mk cs)
          | none => none := by
      simp [extractDistrict, hs]
    rw [hunf]
    cases hm : matchDistrict (jsToUpper (jsTrim s)).data with
    | none =>
      constructor
      · intro h
        simp at h
      · intro hspec
        have hcontra := (matchDistrict_some_iff _ k.data).mpr hspec
        rw [hm] at hcontra
        exact absurd hcontra (by simp)
    | some cs =>
      constructor
      · intro h
        have hcs : String.mk cs = k := by simpa using h
        have hd : k.data = cs := by rw [← hcs]
        rw [hd]
        exact (matchDistrict_some_iff _ cs).mp hm
      · intro hspec
        have h2 := (matchDistrict_some_iff _ k.data).mpr hspec
        rw [hm] at h2
        have hd : cs = k.data := by simpa using h2
        rw [hd]

/-- C4: `extractDistrict` trims and uppercases its input, then
deterministically matches the leading run against "1–2 letters, 1–2 digits,
optionally 1 trailing letter", greedy but bounded; in particular on the
compact input "NE12AB" it consumes both digits and then swallows the letter
"A" of the unrelated suffix, returning "NE12A". -/
theorem claim_C4_region_key (s : String) :
    (∀ k : String, extractDistrict (some s) = some k ↔
      DistrictSpec (jsToUpper (jsTrim s)).data k.data)
  ∧ extractDistrict (some "NE12AB") = some "NE12A" :=
  ⟨fun k => extractDistrict_some_iff s k, by decide⟩

/-- C4 witness: the characterisation applied on the compact ambiguous
input. -/
theorem claim_C4_witness : extractDistrict (some "NE12AB") = some "NE12A" :=
  (claim_C4_region_key "NE12AB").2

theorem trimList_eq_self (l : List Char) (h : ∀ c ∈ l, jsWhitespace c = false) :
    trimList l = l := by
  have h1 : l.dropWhile jsWhitespace = l := by
    cases l with
    | nil => rfl
    | cons c l' =>
      rw [List.dropWhile_cons, if_neg (by simp [h c (List.mem_cons_self c l')])]
  have h2 : l.reverse.dropWhile jsWhitespace = l.reverse := by
    cases hr : l.reverse with
    | nil => rfl
    | cons c r' =>
      have hc : c ∈ l := by
        rw [← List.mem_reverse, hr]
        exact List.mem_cons_self c r'
      rw [List.dropWhile_cons, if_neg (by simp [h c hc])]
  rw [trimList, h1, h2, List.reverse_reverse]

theorem charUpper_eq_self (c : Char) (h : isLowerAZ c = false) :
    charUpper c = c := by
  rw [charUpper, if_neg (by simp [h])]

theorem upper_digit_not_lower (c : Char)
    (h : isUpperAZ c = true ∨ isDigitChar c = true) : isLowerAZ c = false := by
  simp only [isUpperAZ, isDigitChar, Bool.and_eq_true, decide_eq_true_eq] at h
  simp only [isLowerAZ, Bool.and_eq_false_iff, decide_eq_false_iff_not]
  omega

theorem upper_digit_not_ws (c : Char)
    (h : isUpperAZ c = true ∨ isDigitChar c = true) : jsWhitespace c = false := by
  simp only [isUpperAZ, isDigitChar, Bool.and_eq_true, decide_eq_true_eq] at h
  simp only [jsWhitespace, Bool.or_eq_false_iff, beq_eq_false_iff_ne, ne_eq]
  omega

/-- C9: every key produced by `extractDistrict` is a fixed point of
`extractDistrict`. -/
theorem claim_C9_idempotence (s k : String)
    (h : extractDistrict (some s) = some k) :
    extractDistrict (some k) = some k := by
  obtain ⟨ls, ds, ts, rest, ht, hk, hlsall, hls1, hls2, hdsall, hds1, hds2,
    htsall, hts1, hdg, htg⟩ := (extractDistrict_some_iff s k).mp h
  have hclass : ∀ c ∈ k.data, isUpperAZ c = true ∨ isDigitChar c = true := by
    intro c hc
    rw [hk] at hc
    rcases List.mem_append.mp hc with hc' | hc'
    · rcases List.mem_append.mp hc' with h1 | h1
      · exact Or.inl (hlsall c h1)
      · exact Or.inr (hdsall c h1)
    · exact Or.inl (htsall c hc')
  have htrim : jsTrim k = k := by
    rw [jsTrim, trimList_eq_self k.data fun c hc => upper_digit_not_ws c (hclass c hc),
      mk_data]
  have hupper : jsToUpper k = k := by
    rw [jsToUpper]
    have hmap : k.data.map charUpper = k.data := by
      calc k.data.map charUpper
          = k.data.map id :=
            List.map_congr_left fun c hc =>
              charUpper_eq_self c (upper_digit_not_lower c (hclass c hc))
        _ = k.data := List.map_id k.data
    rw [hmap, mk_data]
  apply (extractDistrict_some_iff k k).mpr
  rw [htrim, hupper]
  refine ⟨ls, ds, ts, [], ?_, hk, hlsall, hls1, hls2, hdsall, hds1, hds2,
    htsall, hts1, fun _ _ => trivial, fun _ => trivial⟩
  rw [List.append_nil]
  exact hk

/-- C9 witness: the fixed-point property at a concrete extracted key. -/
theorem claim_C9_witness : extractDistrict (some "NE1") = some "NE1" :=
  claim_C9_idempotence "NE1 4ST" "NE1" (by decide)

/-! ### Fail-soft behaviour (C8) -/

theorem startsLetterDigit_of_match (cs k : List Char)
    (h : matchDistrict cs = some k) : startsLetterDigit cs = true := by
  obtain ⟨ls, ds, ts, rest, ht, hk, hlsall, hls1, hls2, hdsall, hds1, hds2,
    htsall, hts1, hdg, htg⟩ := (matchDistrict_some_iff cs k).mp h
  obtain ⟨d, ds', rfl⟩ : ∃ d ds', ds = d :: ds' := by
    cases ds with
    | nil => simp at hds1
    | cons d ds' => exact ⟨d, ds', rfl⟩
  have hd : isDigitChar d = true := hdsall d (List.mem_cons_self d ds')
  rcases (by omega : ls.length = 1 ∨ ls.length = 2) with h1 | h2
  · obtain ⟨a, rfl⟩ := List.length_eq_one.mp h1
    have ha := hlsall a (List.mem_cons_self a [])
    rw [ht]
    simp [startsLetterDigit, List.cons_append, List.nil_append, ha, hd]
  · obtain ⟨a, b, rfl⟩ := List.length_eq_two.mp h2
    have ha := hlsall a (by simp)
    have hb := hlsall b (by simp)
    have hbd : isDigitChar b = false := not_digit_of_upper b hb
    rw [ht]
    simp [startsLetterDigit, List.cons_append, List.nil_append, ha, hb, hbd, hd]

theorem matchDistrict_eq_none (cs : List Char)
    (h : startsLetterDigit cs = false) : matchDistrict cs = none := by
  cases hm : matchDistrict cs with
  | none => rfl
  | some k =>
    rw [startsLetterDigit_of_match cs k hm] at h
    exact absurd h (by simp)

theorem count_skip_none (tg : Tagger) (l1 l2 : List (Option String)) :
    countPhraseFrequencies tg (.array (l1 ++ none :: l2))
      = countPhraseFrequencies tg (.array (l1 ++ l2)) := by
  show (l1 ++ none :: l2).foldl (countTextStep tg) []
      = (l1 ++ l2).foldl (countTextStep tg) []
  have hstep : ∀ m, countTextStep tg m none = m := fun m => rfl
  rw [List.foldl_append, List.foldl_append, List.foldl_cons, hstep]

theorem count_skip_empty (tg : Tagger) (l1 l2 : List (Option String)) :
    countPhraseFrequencies tg (.array (l1 ++ some "" :: l2))
      = countPhraseFrequencies tg (.array (l1 ++ l2)) := by
  show (l1 ++ some "" :: l2).foldl (countTextStep tg) []
      = (l1 ++ l2).foldl (countTextStep tg) []
  have hstep : ∀ m, countTextStep tg m (some "") = m := fun m => by
    simp [countTextStep]
  rw [List.foldl_append, List.foldl_append, List.foldl_cons, hstep]

/-- C8: every core function degrades to an empty or neutral result on
invalid input: `countPhraseFrequencies` returns an empty map on non-array
input and skips `null`/`undefined`/`""` entries anywhere in the array, and
`extractDistrict` returns `null` on `null`/non-string input (`none`), on the
empty string, and on any input whose trimmed uppercase form does not start
with the letters-then-digit pattern. -/
theorem claim_C8_fail_soft (tg : Tagger) :
    countPhraseFrequencies tg .notArray = []
  ∧ (∀ l1 l2, countPhraseFrequencies tg (.array (l1 ++ none :: l2))
      = countPhraseFrequencies tg (.array (l1 ++ l2)))
  ∧ (∀ l1 l2, countPhraseFrequencies tg (.array (l1 ++ some "" :: l2))
      = countPhraseFrequencies tg (.array (l1 ++ l2)))
  ∧ (∀ t, countPhraseFrequencies tg (.array [some t, none, none, some ""])
      = countPhraseFrequencies tg (.array [some t]))
  ∧ extractDistrict none = none
  ∧ extractDistrict (some "") = none
  ∧ (∀ s : String, startsLetterDigit (jsToUpper (jsTrim s)).data = false →
      extractDistrict (some s) = none) := by
  refine ⟨rfl, count_skip_none tg, count_skip_empty tg, ?_, rfl, by simp [extractDistrict], ?_⟩
  · intro t
    calc countPhraseFrequencies tg (.array [some t, none, none, some ""])
        = countPhraseFrequencies tg (.array ([some t] ++ none :: [none, some ""])) := rfl
      _ = countPhraseFrequencies tg (.array ([some t] ++ [none, some ""])) :=
          count_skip_none tg [some t] [none, some ""]
      _ = countPhraseFrequencies tg (.array ([some t] ++ none :: [some ""])) := rfl
      _ = countPhraseFrequencies tg (.array ([some t] ++ [some ""])) :=
          count_skip_none tg [some t] [some ""]
      _ = countPhraseFrequencies tg (.array ([some t] ++ some "" :: [])) := rfl
      _ = countPhraseFrequencies tg (.array ([some t] ++ [])) :=
          count_skip_empty tg [some t] []
      _ = countPhraseFrequencies tg (.array [some t]) := by rw [List.append_nil]
  · intro s hsld
    by_cases hse : s = ""
    · simp [extractDistrict, hse]
    · simp only [extractDistrict, if_neg hse]
      rw [matchDistrict_eq_none _ hsld]

/-- C8 witness: the fail-soft contract at concrete inputs. -/
theorem claim_C8_witness :
    startsLetterDigit (jsToUpper (jsTrim "INVALID")).data = false
  ∧ extractDistrict (some "INVALID") = none
  ∧ countPhraseFrequencies cexTagger .notArray = []
  ∧ countPhraseFrequencies cexTagger
      (.array [some "digital skills", none, none, some ""])
      = countPhraseFrequencies cexTagger (.array [some "digital skills"]) :=
  ⟨by decide,
    (claim_C8_fail_soft cexTagger).2.2.2.2.2.2 "INVALID" (by decide),
    (claim_C8_fail_soft cexTagger).1,
    (claim_C8_fail_soft cexTagger).2.2.2.1 "digital skills"⟩

/-! ### Grouping by area code (C7) -/

theorem lookup_group_map_self (acc : List (String × List String)) (a d : String) :
    (acc.map (fun g => if g.1 = a then (g.1, setAdd g.2 d) else g)).lookup a
      = (acc.lookup a).map (fun v => setAdd v d) := by
  induction acc with
  | nil => rfl
  | cons e m' ih =>
    obtain ⟨k, v⟩ := e
    simp only [List.map_cons]
    by_cases hk : k = a
    · subst hk
      rw [if_pos rfl, lookup_cons_self, lookup_cons_self]
      rfl
    · rw [if_neg hk, lookup_cons_ne k a v _ (Ne.symm hk),
        lookup_cons_ne k a v m' (Ne.symm hk), ih]

theorem lookup_group_map_ne (acc : List (String × List String)) (a q d : String)
    (h : q ≠ a) :
    (acc.map (fun g => if g.1 = a then (g.1, setAdd g.2 d) else g)).lookup q
      = acc.lookup q := by
  induction acc with
  | nil => rfl
  | cons e m' ih =>
    obtain ⟨k, v⟩ := e
    simp only [List.map_cons]
    by_cases hk : k = a
    · subst hk
      rw [if_pos rfl, lookup_cons_ne k q _ _ h, lookup_cons_ne k q v m' h, ih]
    · rw [if_neg hk]
      by_cases hqk : q = k
      · subst hqk
        rw [lookup_cons_self, lookup_cons_self]
      · rw [lookup_cons_ne k q v _ hqk, lookup_cons_ne k q v m' hqk, ih]

theorem lookup_addToGroup_self (acc : List (String × List String)) (a d : String) :
    (addToGroup acc a d).lookup a
      = some (setAdd ((acc.lookup a).getD []) d) := by
  unfold addToGroup
  by_cases hs : (acc.lookup a).isSome = true
  · rw [if_pos hs, lookup_group_map_self]
    obtain ⟨v, h⟩ := Option.isSome_iff_exists.mp hs
    rw [h]
    rfl
  · rw [if_neg hs]
    have h : acc.lookup a = none := Option.not_isSome_iff_eq_none.mp hs
    rw [lookup_append_single_self acc a [d] h, h]
    rfl

theorem lookup_addToGroup_ne (acc : List (String × List String)) (a q d : String)
    (h : q ≠ a) : (addToGroup acc a d).lookup q = acc.lookup q := by
  unfold addToGroup
  by_cases hs : (acc.lookup a).isSome = true
  · rw [if_pos hs]
    exact lookup_group_map_ne acc a q d h
  · rw [if_neg hs]
    exact lookup_append_single_ne acc a q [d] h

theorem lookup_groupFold (l : List String)
    (acc : List (String × List String)) (A : String) :
    (l.foldl groupStep acc).lookup A
      = (l.filter (fun d => areaOf d == some A)).foldl
          (fun o d => some (setAdd (o.getD []) d)) (acc.lookup A) := by
  induction l generalizing acc with
  | nil => rfl
  | cons dd l' ih =>
    rw [List.foldl_cons, ih]
    cases ha : areaOf dd with
    | none =>
      have hstep : groupStep acc dd = acc := by rw [groupStep, ha]
      have hfil : (areaOf dd == some A) = false := by rw [ha]; rfl
      rw [hstep, List.filter_cons_of_neg (by simp [hfil])]
    | some a =>
      have hstep : groupStep acc dd = addToGroup acc a dd := by rw [groupStep, ha]
      rw [hstep]
      by_cases haA : a = A
      · subst haA
        have hfil : (areaOf dd == some a) = true := by rw [ha]; simp
        rw [List.filter_cons_of_pos (by simp [hfil]), List.foldl_cons,
          lookup_addToGroup_self]
      · have hfil : (areaOf dd == some A) = false := by
          rw [ha]
          simp [haA]
        rw [List.filter_cons_of_neg (by simp [hfil]),
          lookup_addToGroup_ne acc a A dd (Ne.symm haA)]

theorem foldl_setAddOpt_some (ds : List String) (g : List String) :
    ds.foldl (fun o d => some (setAdd (o.getD []) d)) (some g)
      = some (ds.foldl setAdd g) := by
  induction ds generalizing g with
  | nil => rfl
  | cons d ds' ih =>
    rw [List.foldl_cons, List.foldl_cons]
    exact ih (setAdd g d)

theorem groupDistrictsByArea_lookup (districts : List String) (A : String) :
    (groupDistrictsByArea districts).lookup A
      = (if districts.filter (fun d => areaOf d == some A) = [] then none
         else some (jsSetDedup (districts.filter (fun d => areaOf d == some A)))) := by
  show (districts.foldl groupStep []).lookup A = _
  rw [lookup_groupFold districts [] A]
  cases hf : districts.filter (fun d => areaOf d == some A) with
  | nil => rw [if_pos rfl]; rfl
  | cons d fl =>
    rw [if_neg (by simp), List.foldl_cons, foldl_setAddOpt_some]
    rfl

/-- C7 (amended): `groupDistrictsByArea` groups each district under the
**uppercased** leading 1–2-letter area code, but stores the member district
strings verbatim (they are not case-normalised); each group's members are
exactly the districts with that area code, de-duplicated in first-occurrence
order, and the example `["NE1","NE2","TS1"]` groups to
`{NE: {NE1, NE2}, TS: {TS1}}`. -/
theorem claim_C7_grouping (districts : List String) :
    (∀ A, (groupDistrictsByArea districts).lookup A
      = (if districts.filter (fun d => areaOf d == some A) = [] then none
         else some (jsSetDedup (districts.filter (fun d => areaOf d == some A)))))
  ∧ groupDistrictsByArea ["NE1", "NE2", "TS1"]
      = [("NE", ["NE1", "NE2"]), ("TS", ["TS1"])] :=
  ⟨groupDistrictsByArea_lookup districts, by decide⟩

/-- C7 counterexample: member keys are **not** uppercased before grouping —
a lowercase district "ne1" is grouped under area "NE" but stored as "ne1",
not "NE1". -/
theorem claim_C7_counterexample :
    groupDistrictsByArea ["ne1"] = [("NE", ["ne1"])]
  ∧ ("ne1" : String) ≠ "NE1" :=
  ⟨by decide, by decide⟩

/-! ### Extraction and significance (C5, C6) -/

/-- C5: `isSignificantPhrase` holds on a nonempty phrase exactly when the
trimmed, lowercased phrase is outside the stop list and the tagger, re-run
standalone on that normalised phrase, finds one of the four pattern classes;
in particular every stop-list word is insignificant. -/
theorem claim_C5_significance (tg : Tagger) :
    (∀ p : String, p ≠ "" →
      (isSignificantPhrase tg (some p) = true ↔
        (jsTrim (jsToLower p) ∉ COMMON_WORDS
          ∧ taggerFound tg (jsTrim (jsToLower p)) = true)))
  ∧ (∀ w ∈ COMMON_WORDS, isSignificantPhrase tg (some w) = false) := by
  constructor
  · intro p hp
    by_cases hm : jsTrim (jsToLower p) ∈ COMMON_WORDS
    · simp [isSignificantPhrase, hp, hm]
    · simp [isSignificantPhrase, hp, hm]
  · intro w hw
    have hall : ∀ x ∈ COMMON_WORDS, x ≠ "" ∧ jsTrim (jsToLower x) = x := by decide
    obtain ⟨hne, hnorm⟩ := hall w hw
    simp [isSignificantPhrase, hne, hnorm, hw]

/-- C5 witness: the significance criterion applied at the concrete phrase
"digital skills". -/
theorem claim_C5_witness :
    isSignificantPhrase cexTagger (some "digital skills") = true ↔
      (jsTrim (jsToLower "digital skills") ∉ COMMON_WORDS
        ∧ taggerFound cexTagger (jsTrim (jsToLower "digital skills")) = true) :=
  (claim_C5_significance cexTagger).1 "digital skills" (by decide)

/-- C6: on a nonempty text, `extractPhrases` returns the union of the four
tagger classes with every phrase lowercased, de-duplicated by exact string
equality: no repeated string, membership is exactly membership in the
lowercased union, every element is the lowercasing of some tagger match, and
the size equals the number of distinct normalised phrases. -/
theorem claim_C6_extract_dedup (tg : Tagger) (t : String) (h : t ≠ "") :
    (extractPhrases tg (some t)).Nodup
  ∧ (∀ p, p ∈ extractPhrases tg (some t) ↔
      p ∈ (tg.adjNoun t ++ tg.verbNoun t ++ tg.orgs t ++ tg.topics t).map jsToLower)
  ∧ (∀ p ∈ extractPhrases tg (some t),
      ∃ q ∈ tg.adjNoun t ++ tg.verbNoun t ++ tg.orgs t ++ tg.topics t,
        p = jsToLower q)
  ∧ (extractPhrases tg (some t)).length
      = ((tg.adjNoun t ++ tg.verbNoun t ++ tg.orgs t ++ tg.topics t).map
          jsToLower).toFinset.card := by
  have hext : extractPhrases tg (some t) = extractPhrasesStr tg t := by
    simp [extractPhrases, h]
  have hnd : (extractPhrasesStr tg t).Nodup := nodup_jsSetDedup _
  have hmem : ∀ p, p ∈ extractPhrasesStr tg t ↔
      p ∈ (tg.adjNoun t ++ tg.verbNoun t ++ tg.orgs t ++ tg.topics t).map jsToLower :=
    fun p => mem_jsSetDedup _ p
  refine ⟨hext ▸ hnd, fun p => hext ▸ hmem p, ?_, ?_⟩
  · intro p hp
    rw [hext] at hp
    obtain ⟨q, hq, hqe⟩ := List.mem_map.mp ((hmem p).mp hp)
    exact ⟨q, hq, hqe.symm⟩
  · rw [hext]
    have hfin : (extractPhrasesStr tg t).toFinset
        = ((tg.adjNoun t ++ tg.verbNoun t ++ tg.orgs t ++ tg.topics t).map
            jsToLower).toFinset := by
      apply Finset.ext
      intro p
      simp only [List.mem_toFinset]
      exact hmem p
    rw [← List.toFinset_card_of_nodup hnd, hfin]

/-- C6 witness: de-duplication on the text whose tagger matches list the same
phrase twice. -/
theorem claim_C6_witness :
    ("digital skills and digital skills" : String) ≠ ""
  ∧ (extractPhrases cexTagger (some "digital skills and digital skills")).Nodup :=
  ⟨by decide,
    (claim_C6_extract_dedup cexTagger "digital skills and digital skills"
      (by decide)).1⟩

end Qualmap
